import Mathlib

/-!
Shallow embedding of `src/bpitnorm/modules/BatchPitNormalization.py`
(class `BatchPitNorm1d`) and verification of its specification.

The buffer logic (`fill`) is embedded generically over a row type `α`:
a tensor of shape `(capacity, num_features)` becomes a `List α` of length
`capacity`, one element per row.  Randomness (`torch.randperm`) is made
explicit: the two draws of a `fill` call are supplied by oracles
`rb rs : ℕ → List ℕ`, and a valid outcome of `randperm n` is any
permutation of `List.range n` (predicate `isRandPermOf`).

The numeric pipeline (`standard_normal_cdf`, `standard_normal_ppf`,
`make_cdf`, `forward`'s output) is embedded over `ℝ`, with the external
primitives `torch.special.erf` / `torch.special.erfinv` kept abstract as
function parameters.
-/

namespace BPit

/-- State of a `BatchPitNorm1d` layer's sample buffer: `num_pit_samples`
is the capacity, `take_num_samples_when_full` the replacement batch size,
`size` the fill level, and `values` the buffer rows (`cdf_data`). -/
structure BatchPitNorm1d (α : Type) where
  num_pit_samples : ℕ
  take_num_samples_when_full : ℕ
  size : ℕ
  values : List α
deriving Repr, DecidableEq

variable {α : Type}

/-- Property `capacity_left` of the layer. -/
def capacity_left (st : BatchPitNorm1d α) : ℕ :=
  st.num_pit_samples - st.size

/-- Property `is_full` of the layer. -/
def is_full (st : BatchPitNorm1d α) : Prop :=
  st.size = st.num_pit_samples

/-- Slice assignment `l[i : i + d.length] = d`. -/
def writeSlice (l : List α) (i : ℕ) (d : List α) : List α :=
  l.take i ++ d ++ l.drop (i + d.length)

/-- Indexed assignment `l[idx] = src`, performed pairwise
(`ps` zips destination indices with the rows assigned to them). -/
def setMany (l : List α) (ps : List (ℕ × α)) : List α :=
  ps.foldl (fun acc p => acc.set p.1 p.2) l

/-- A valid outcome of `torch.randperm n`: some permutation of `0..n-1`. -/
def isRandPermOf (l : List ℕ) (n : ℕ) : Prop :=
  l.Perm (List.range n)

/-- The `else` branch of `fill` (buffer full): replacement sampling.
`rb`/`rs` supply the outcomes of the two `torch.randperm` calls.  The
indexed assignment `values[use_values_indexes] = data[use_batch_indexes]`
succeeds when the two sides have the same number of rows (or the source
is a single row, which broadcasts); otherwise it raises. -/
def replaceFull [Inhabited α] (st : BatchPitNorm1d α) (data : List α)
    (rb rs : ℕ → List ℕ) : Except String (BatchPitNorm1d α) :=
  if st.take_num_samples_when_full = 0 then .ok st
  else
    let k := min data.length st.take_num_samples_when_full
    let use_batch_indexes := rb k
    let use_values_indexes := (rs st.num_pit_samples).take k
    let src := use_batch_indexes.map fun i => data.getD i default
    if use_values_indexes.length = src.length then
      .ok { st with values := setMany st.values (use_values_indexes.zip src) }
    else if src.length = 1 then
      .ok { st with
        values := setMany st.values
          (use_values_indexes.map fun j => (j, src.getD 0 default)) }
    else
      .error "shape mismatch: value rows cannot be broadcast to indexing result"

/-- The `fill` method.  Asserts training mode, then, in order: full take
when capacity remains for the whole batch; partial take followed by a
recursive call on the remainder; replacement sampling once full. -/
def fill [Inhabited α] (st : BatchPitNorm1d α) (training : Bool)
    (data : List α) (rb rs : ℕ → List ℕ) : Except String (BatchPitNorm1d α) :=
  if training then
    let batch_size := data.length
    let cap_left := capacity_left st
    if batch_size ≤ cap_left then
      .ok { st with values := writeSlice st.values st.size data,
                    size := st.size + batch_size }
    else if 0 < cap_left then
      fill { st with values := writeSlice st.values st.size (data.take cap_left),
                     size := st.size + cap_left }
        training (data.drop cap_left) rb rs
    else
      replaceFull st data rb rs
  else
    .error "Must be in training mode to allow filling."
termination_by data.length
decreasing_by
  simp only [List.length_drop]
  omega

/-- A sequence of `fill` calls in training mode, each with its own batch
and its own randomness oracles. -/
def fillSeq [Inhabited α] (st : BatchPitNorm1d α)
    (calls : List (List α × (ℕ → List ℕ) × (ℕ → List ℕ))) :
    Except String (BatchPitNorm1d α) :=
  calls.foldlM (fun s c => fill s true c.1 c.2.1 c.2.2) st

noncomputable section

/-- Static method `standard_normal_cdf`: `0.5 * (1.0 + torch.special.erf (x / sqrt 2))`,
with the external primitive `erf` abstract. -/
def standard_normal_cdf (erf : ℝ → ℝ) (x : ℝ) : ℝ :=
  0.5 * (1 + erf (x / Real.sqrt 2))

/-- Static method `standard_normal_ppf`: clip to `[9e-8, 1 - 9e-8]`, then
`sqrt 2 * torch.special.erfinv (2 * x - 1)` (`erfinv` abstract).
`torch.clip x lo hi = min (max x lo) hi`. -/
def standard_normal_ppf (erfinv : ℝ → ℝ) (x : ℝ) : ℝ :=
  Real.sqrt 2 * erfinv (2 * min (max x (9e-8)) (1 - 9e-8) - 1)

/-- The function `torch.sigmoid`. -/
def sigmoidR (x : ℝ) : ℝ := 1 / (1 + Real.exp (-x))

/-- Method `Tensor.std()` on a 1-D tensor: the Bessel-corrected sample standard
deviation `sqrt (Σ (xᵢ - mean)² / (m - 1))`. -/
def stdR (l : List ℝ) : ℝ :=
  Real.sqrt (((l.map fun x => (x - l.sum / l.length) ^ 2).sum) / (l.length - 1))

/-- The function `torch.quantile` on a 1-D tensor with the default linear
interpolation: with `s` the sorted data and `h = q * (m - 1)`, the result
is `s[⌊h⌋] + (h - ⌊h⌋) * (s[min (⌊h⌋+1) (m-1)] - s[⌊h⌋])`. -/
def torchQuantile (l : List ℝ) (q : ℝ) : ℝ :=
  let s := l.insertionSort (· ≤ ·)
  let h := q * ((l.length : ℝ) - 1)
  let i := ⌊h⌋₊
  s.getD i 0 + (h - (i : ℝ)) * (s.getD (min (i + 1) (l.length - 1)) 0 - s.getD i 0)

/-- The heuristic bandwidth computed by `make_cdf` when
`trainable_bandwidths` is false:
`0.9 * min (data.std()) (IQR / 1.34) * num_samples ** (-0.2)`. -/
def heuristicBw (data : List ℝ) : ℝ :=
  let q25 := torchQuantile data 0.25
  let q75 := torchQuantile data 0.75
  let IQR := q75 - q25
  0.9 * min (stdR data) (IQR / 1.34) * (data.length : ℝ) ^ (-(0.2 : ℝ))

/-- The bandwidth `make_cdf` actually uses: the heuristic rule when
bandwidths are not trainable, `sigmoid bw` when they are. -/
def selectBw (trainable : Bool) (data : List ℝ) (bw : ℝ) : ℝ :=
  if trainable then sigmoidR bw else heuristicBw data

/-- Method `make_cdf data bw`: selects the bandwidth, then returns
`fun use_x => 1.0 / num_samples * sum (standard_normal_cdf ((use_x - data) / bw))`. -/
def make_cdf (erf : ℝ → ℝ) (trainable : Bool) (data : List ℝ) (bw : ℝ) :
    ℝ → ℝ :=
  let bw' := selectBw trainable data bw
  fun use_x =>
    1 / (data.length : ℝ) *
      ((data.map fun d => standard_normal_cdf erf ((use_x - d) / bw')).sum)

/-- Modelled from the spec: the conceptual kernel-mixture CDF
`F(x) = (1/m) * Σ_{i=1..m} Φ((x - reference_sample[i]) / bandwidth)` with
`Φ(z) = 0.5 * (1 + erf (z / √2))`, written from the spec's words for
comparison with `make_cdf`. -/
def kernelMixtureCdfSpec (erf : ℝ → ℝ) (sample : List ℝ) (bw x : ℝ) : ℝ :=
  1 / (sample.length : ℝ) *
    ((sample.map fun s => 0.5 * (1 + erf ((x - s) / bw / Real.sqrt 2))).sum)

/-- The numeric output of `forward` as a function of the post-`fill`
buffer contents `vals`/`sz` and the batch `x` (rows of features):
`all_data = vstack(values[0:size], x)`, then per feature `j` (the
`torch.vmap` over dim 1) `process_merged` builds the CDF from the first
`size` entries of the column and evaluates it at the remaining entries,
and finally `standard_normal_ppf` or the `- 0.5` centering is applied. -/
def forwardOutput (erf erfinv : ℝ → ℝ) (trainable normal_backtransform : Bool)
    (num_features : ℕ) (vals : List (List ℝ)) (sz : ℕ) (bw : List ℝ)
    (x : List (List ℝ)) : List (List ℝ) :=
  let all_data := vals.take sz ++ x
  (List.range x.length).map fun i =>
    (List.range num_features).map fun j =>
      let col := all_data.map fun r => r.getD j 0
      let u := make_cdf erf trainable (col.take sz) (bw.getD j 0)
        ((col.drop sz).getD i 0)
      if normal_backtransform then standard_normal_ppf erfinv u else u - 0.5

/-- The `forward` method: in training mode first `fill` (which itself
asserts training mode), otherwise assert `size > 0`; then compute the
transformed batch.  Returns the post-call buffer state together with the
output. -/
def forward (st : BatchPitNorm1d (List ℝ)) (training : Bool)
    (erf erfinv : ℝ → ℝ) (bw : List ℝ) (trainable normal_backtransform : Bool)
    (num_features : ℕ) (x : List (List ℝ)) (rb rs : ℕ → List ℕ) :
    Except String (BatchPitNorm1d (List ℝ) × List (List ℝ)) :=
  if training then
    match fill st training x rb rs with
    | .error e => .error e
    | .ok st' =>
      .ok (st', forwardOutput erf erfinv trainable normal_backtransform
        num_features st'.values st'.size bw x)
  else
    if 0 < st.size then
      .ok (st, forwardOutput erf erfinv trainable normal_backtransform
        num_features st.values st.size bw x)
    else
      .error "Cannot compute forward pass without sample for the integral transform."

end

/-- Modelled from torch: creating a tensor with a negative dimension
(`torch.empty` / `torch.rand`) raises a runtime error; any other shape is
accepted. -/
def torchShapeCheck (rows cols : ℤ) : Except String Unit :=
  if rows < 0 ∨ cols < 0 then
    .error "Trying to create tensor with negative dimension"
  else
    .ok ()

/-- The constructor `__init__`: asserts `num_pit_samples > 0` and
`take_num_samples_when_full >= 0`, then creates the bandwidth tensor of
shape `(1, num_features)` and the value buffer of shape
`(num_pit_samples, num_features)`, both NaN-filled (the NaN sentinel is
modelled by the parameter `nanR`), with `size = 0`.  There is no check on
`num_features`; a negative value only fails at tensor creation. -/
noncomputable def initLayer (nanR : ℝ)
    (num_features num_pit_samples take_num_samples_when_full : ℤ) :
    Except String (BatchPitNorm1d (List ℝ)) :=
  if num_pit_samples > 0 then
    if take_num_samples_when_full ≥ 0 then
      match torchShapeCheck 1 num_features with
      | .error e => .error e
      | .ok _ =>
        match torchShapeCheck num_pit_samples num_features with
        | .error e => .error e
        | .ok _ =>
          .ok ⟨num_pit_samples.toNat, take_num_samples_when_full.toNat, 0,
            List.replicate num_pit_samples.toNat
              (List.replicate num_features.toNat nanR)⟩
    else
      .error "assert failed: take_num_samples_when_full >= 0"
  else
    .error "Require at least one sample for PIT normalization."

/-! ### List helper lemmas -/

@[simp]
theorem setMany_nil (l : List α) : setMany l [] = l := rfl

theorem setMany_cons (l : List α) (p : ℕ × α) (ps : List (ℕ × α)) :
    setMany l (p :: ps) = setMany (l.set p.1 p.2) ps := rfl

theorem length_setMany (ps : List (ℕ × α)) (l : List α) :
    (setMany l ps).length = l.length := by
  induction ps generalizing l with
  | nil => rfl
  | cons p ps ih => rw [setMany_cons, ih, List.length_set]

theorem get?_setMany_notMem (ps : List (ℕ × α)) (l : List α) (j : ℕ)
    (h : j ∉ ps.map Prod.fst) : (setMany l ps).get? j = l.get? j := by
  induction ps generalizing l with
  | nil => rfl
  | cons p ps ih =>
    simp only [List.map_cons, List.mem_cons, not_or] at h
    rw [setMany_cons, ih _ h.2, List.get?_set_ne _ _ (Ne.symm h.1)]

theorem get?_setMany_mem (ps : List (ℕ × α)) (l : List α) (j : ℕ) (v : α)
    (hnd : (ps.map Prod.fst).Nodup) (hmem : (j, v) ∈ ps) (hj : j < l.length) :
    (setMany l ps).get? j = some v := by
  induction ps generalizing l with
  | nil => cases hmem
  | cons p ps ih =>
    rw [List.map_cons, List.nodup_cons] at hnd
    rw [setMany_cons]
    rcases List.mem_cons.1 hmem with h | h
    · have hp1 : p.1 = j := by rw [← h]
      have : j ∉ ps.map Prod.fst := hp1 ▸ hnd.1
      rw [get?_setMany_notMem _ _ _ this, hp1, ← h,
        List.get?_set_eq_of_lt _ (hp1 ▸ hj)]
    · exact ih _ hnd.2 h (by rw [List.length_set]; exact hj)

theorem length_writeSlice (l d : List α) (i : ℕ) (h : i + d.length ≤ l.length) :
    (writeSlice l i d).length = l.length := by
  simp only [writeSlice, List.length_append, List.length_take, List.length_drop]
  omega

theorem take_writeSlice (l d : List α) (i : ℕ) (h : i ≤ l.length) :
    (writeSlice l i d).take (i + d.length) = l.take i ++ d := by
  have hlen : (l.take i ++ d).length = i + d.length := by
    simp only [List.length_append, List.length_take]
    omega
  calc (writeSlice l i d).take (i + d.length)
      = ((l.take i ++ d) ++ l.drop (i + d.length)).take ((l.take i ++ d).length) := by
        rw [writeSlice, hlen, List.append_assoc]
    _ = l.take i ++ d := List.take_left _ _

@[simp]
theorem writeSlice_nil (l : List α) (i : ℕ) : writeSlice l i [] = l := by
  simp [writeSlice]

/-! ### `fill` branch lemmas -/

theorem fill_not_training [Inhabited α] (st : BatchPitNorm1d α)
    (data : List α) (rb rs : ℕ → List ℕ) :
    fill st false data rb rs
      = .error "Must be in training mode to allow filling." := by
  rw [fill.eq_def]
  simp

theorem fill_take_all [Inhabited α] (st : BatchPitNorm1d α) (data : List α)
    (rb rs : ℕ → List ℕ) (hb : data.length ≤ capacity_left st) :
    fill st true data rb rs
      = .ok { st with values := writeSlice st.values st.size data,
                      size := st.size + data.length } := by
  rw [fill.eq_def]
  simp [hb]

theorem fill_partial_take [Inhabited α] (st : BatchPitNorm1d α) (data : List α)
    (rb rs : ℕ → List ℕ) (hb1 : ¬ data.length ≤ capacity_left st)
    (hb2 : 0 < capacity_left st) :
    fill st true data rb rs
      = fill { st with
          values := writeSlice st.values st.size (data.take (capacity_left st)),
          size := st.size + capacity_left st }
        true (data.drop (capacity_left st)) rb rs := by
  rw [fill.eq_def]
  simp [hb1, hb2]

theorem fill_when_full [Inhabited α] (st : BatchPitNorm1d α) (data : List α)
    (rb rs : ℕ → List ℕ) (hb1 : 0 < data.length)
    (hb2 : capacity_left st = 0) :
    fill st true data rb rs = replaceFull st data rb rs := by
  rw [fill.eq_def]
  simp [hb2, Nat.pos_iff_ne_zero.mp hb1]

theorem replaceFull_ok_spec [Inhabited α] (st st' : BatchPitNorm1d α)
    (data : List α) (rb rs : ℕ → List ℕ)
    (h : replaceFull st data rb rs = .ok st') :
    st'.num_pit_samples = st.num_pit_samples ∧
    st'.take_num_samples_when_full = st.take_num_samples_when_full ∧
    st'.size = st.size ∧
    st'.values.length = st.values.length ∧
    (st.take_num_samples_when_full = 0 → st'.values = st.values) := by
  simp only [replaceFull] at h
  split at h
  · cases h
    exact ⟨rfl, rfl, rfl, rfl, fun _ => rfl⟩
  · rename_i hK
    split at h
    · cases h
      exact ⟨rfl, rfl, rfl, length_setMany _ _, fun h0 => absurd h0 hK⟩
    · split at h
      · cases h
        exact ⟨rfl, rfl, rfl, length_setMany _ _, fun h0 => absurd h0 hK⟩
      · cases h

/-- Everything a successful `fill` call preserves or guarantees:
fixed capacity and replacement size, fixed buffer length, monotone and
bounded `size`, and a frozen buffer once full (frozen values when
additionally `take_num_samples_when_full = 0`). -/
theorem fill_ok_spec [Inhabited α] :
    ∀ (N : ℕ) (data : List α) (st st' : BatchPitNorm1d α)
      (rb rs : ℕ → List ℕ),
      data.length = N →
      st.values.length = st.num_pit_samples →
      st.size ≤ st.num_pit_samples →
      fill st true data rb rs = .ok st' →
      st'.num_pit_samples = st.num_pit_samples ∧
      st'.take_num_samples_when_full = st.take_num_samples_when_full ∧
      st'.values.length = st.num_pit_samples ∧
      st.size ≤ st'.size ∧
      st'.size ≤ st.num_pit_samples ∧
      (st.size = st.num_pit_samples → st'.size = st.size) ∧
      (st.size = st.num_pit_samples → st.take_num_samples_when_full = 0 →
        st'.values = st.values) := by
  intro N
  induction N using Nat.strong_induction_on with
  | _ N ih =>
    intro data st st' rb rs hN hlen hsz h
    by_cases hb1 : data.length ≤ capacity_left st
    · rw [fill_take_all st data rb rs hb1] at h
      simp only [Except.ok.injEq] at h
      subst h
      unfold capacity_left at hb1
      have hwt : st.size + data.length ≤ st.values.length := by omega
      refine ⟨rfl, rfl, ?_, Nat.le_add_right _ _, ?_, ?_, ?_⟩
      · show (writeSlice st.values st.size data).length = st.num_pit_samples
        rw [length_writeSlice _ _ _ hwt, hlen]
      · show st.size + data.length ≤ st.num_pit_samples
        omega
      · intro hfull
        show st.size + data.length = st.size
        omega
      · intro hfull _
        show writeSlice st.values st.size data = st.values
        have hn : data.length = 0 := by omega
        rw [List.length_eq_zero.mp hn, writeSlice_nil]
    · by_cases hb2 : 0 < capacity_left st
      · rw [fill_partial_take st data rb rs hb1 hb2] at h
        have hcle : capacity_left st ≤ data.length := le_of_not_le hb1
        have hlt : (data.drop (capacity_left st)).length < N := by
          simp only [List.length_drop]
          omega
        have htk : (data.take (capacity_left st)).length = capacity_left st := by
          simp only [List.length_take]
          omega
        have hwt : st.size + (data.take (capacity_left st)).length
            ≤ st.values.length := by
          rw [htk]
          unfold capacity_left
          omega
        have hlen2 :
            (writeSlice st.values st.size (data.take (capacity_left st))).length
              = st.num_pit_samples := by
          rw [length_writeSlice _ _ _ hwt, hlen]
        have hsz2 : st.size + capacity_left st ≤ st.num_pit_samples := by
          unfold capacity_left
          omega
        obtain ⟨g1, g2, g3, g4, g5, g6, g7⟩ :=
          ih _ hlt _ _ _ rb rs rfl hlen2 hsz2 h
        refine ⟨g1, g2, g3, ?_, g5, ?_, ?_⟩
        · exact le_trans (Nat.le_add_right _ _) g4
        · intro hfull
          unfold capacity_left at hb2
          omega
        · intro hfull _
          unfold capacity_left at hb2
          omega
      · have hcl : capacity_left st = 0 := by omega
        have hn : 0 < data.length := by
          rw [hcl] at hb1
          omega
        rw [fill_when_full st data rb rs hn hcl] at h
        obtain ⟨g1, g2, g3, g4, g5⟩ := replaceFull_ok_spec st st' data rb rs h
        exact ⟨g1, g2, g4.trans hlen, g3.ge, le_trans (le_of_eq g3) hsz,
          fun _ => g3, fun _ h0 => g5 h0⟩

/-! ### `fillSeq` lemmas -/

theorem fillSeq_nil [Inhabited α] (st : BatchPitNorm1d α) :
    fillSeq st [] = .ok st := rfl

theorem fillSeq_cons [Inhabited α] (st : BatchPitNorm1d α)
    (c : List α × (ℕ → List ℕ) × (ℕ → List ℕ)) (calls) :
    fillSeq st (c :: calls)
      = (fill st true c.1 c.2.1 c.2.2).bind fun s => fillSeq s calls := rfl

/-- A run of `fill` calls whose rows all fit in the remaining capacity
succeeds, adds up the sizes, and appends the rows in arrival order. -/
theorem fillSeq_spec [Inhabited α]
    (calls : List (List α × (ℕ → List ℕ) × (ℕ → List ℕ))) :
    ∀ st : BatchPitNorm1d α,
      st.values.length = st.num_pit_samples →
      st.size + (calls.map fun c => c.1.length).sum ≤ st.num_pit_samples →
      ∃ st', fillSeq st calls = .ok st' ∧
        st'.num_pit_samples = st.num_pit_samples ∧
        st'.values.length = st.num_pit_samples ∧
        st'.size = st.size + (calls.map fun c => c.1.length).sum ∧
        st'.values.take st'.size
          = st.values.take st.size ++ (calls.map fun c => c.1).flatten := by
  induction calls with
  | nil =>
    intro st hlen hsum
    exact ⟨st, rfl, rfl, hlen, by simp, by simp⟩
  | cons c calls ih =>
    intro st hlen hsum
    simp only [List.map_cons, List.sum_cons] at hsum
    have hb : c.1.length ≤ capacity_left st := by
      unfold capacity_left
      omega
    have hszle : st.size ≤ st.values.length := by
      rw [hlen]
      omega
    obtain ⟨st', h1, h2, h3, h4, h5⟩ :=
      ih { st with values := writeSlice st.values st.size c.1,
                   size := st.size + c.1.length }
        (by
          show (writeSlice st.values st.size c.1).length = st.num_pit_samples
          rw [length_writeSlice _ _ _ (by rw [hlen]; unfold capacity_left at hb; omega),
            hlen])
        (by
          show st.size + c.1.length + _ ≤ st.num_pit_samples
          omega)
    refine ⟨st', ?_, h2, h3, ?_, ?_⟩
    · rw [fillSeq_cons, fill_take_all st c.1 c.2.1 c.2.2 hb]
      exact h1
    · rw [h4]
      show st.size + c.1.length + _ = st.size + _
      simp only [List.map_cons, List.sum_cons]
      omega
    · rw [h5]
      show (writeSlice st.values st.size c.1).take (st.size + c.1.length) ++ _ = _
      rw [take_writeSlice _ _ _ hszle, List.map_cons, List.flatten_cons,
        List.append_assoc]

/-! ### C2: buffer monotonicity -/

/-- C2: for every sequence of `fill` calls whose total number of incoming
rows is at most the capacity, after the sequence `size` equals the
cumulative row count and the first `size` buffer rows are exactly the
incoming rows in arrival order. -/
theorem C2_buffer_monotonicity {α : Type} [Inhabited α] (capacity K : ℕ)
    (v₀ : List α) (hv : v₀.length = capacity)
    (calls : List (List α × (ℕ → List ℕ) × (ℕ → List ℕ)))
    (htot : (calls.map fun c => c.1.length).sum ≤ capacity) :
    ∃ st', fillSeq ⟨capacity, K, 0, v₀⟩ calls = .ok st' ∧
      st'.size = (calls.map fun c => c.1.length).sum ∧
      st'.values.take st'.size = (calls.map fun c => c.1).flatten := by
  obtain ⟨st', h1, _, _, h4, h5⟩ :=
    fillSeq_spec calls ⟨capacity, K, 0, v₀⟩ hv (by simpa using htot)
  refine ⟨st', h1, by simpa using h4, ?_⟩
  simpa using h5

/-- Witness for C2: capacity 2, batches `[4]` then `[5]`; the buffer ends
with `size = 2` and rows `[4, 5]`. -/
theorem C2_witness :
    ∃ st' : BatchPitNorm1d ℕ,
      fillSeq ⟨2, 0, 0, [9, 9]⟩
          [([4], fun n => List.range n, fun n => List.range n),
           ([5], fun n => List.range n, fun n => List.range n)] = .ok st' ∧
      st'.size = (([([4], fun n => List.range n, fun n => List.range n),
           ([5], fun n => List.range n, fun n => List.range n)] :
             List (List ℕ × (ℕ → List ℕ) × (ℕ → List ℕ))).map
             fun c => c.1.length).sum ∧
      st'.values.take st'.size
        = (([([4], fun n => List.range n, fun n => List.range n),
           ([5], fun n => List.range n, fun n => List.range n)] :
             List (List ℕ × (ℕ → List ℕ) × (ℕ → List ℕ))).map
             fun c => c.1).flatten :=
  C2_buffer_monotonicity 2 0 [9, 9] rfl _ (by simp)

/-! ### C6: size invariants and buffer saturation -/

/-- C6: across any successful `fill` call, `0 ≤ size ≤ capacity` holds
and `size` is non-decreasing; once `size = capacity` the call leaves
`size` unchanged, and with `take_num_samples_when_full = 0` it leaves the
stored values unchanged as well. -/
theorem C6_size_saturation {α : Type} [Inhabited α]
    (st st' : BatchPitNorm1d α) (data : List α) (rb rs : ℕ → List ℕ)
    (hlen : st.values.length = st.num_pit_samples)
    (hsz : st.size ≤ st.num_pit_samples)
    (h : fill st true data rb rs = .ok st') :
    (0 ≤ st'.size ∧ st'.size ≤ st.num_pit_samples) ∧
    st.size ≤ st'.size ∧
    (st.size = st.num_pit_samples → st'.size = st.size) ∧
    (st.size = st.num_pit_samples → st.take_num_samples_when_full = 0 →
      st'.values = st.values) := by
  obtain ⟨-, -, -, g4, g5, g6, g7⟩ :=
    fill_ok_spec data.length data st st' rb rs rfl hlen hsz h
  exact ⟨⟨Nat.zero_le _, g5⟩, g4, g6, g7⟩

/-- Witness for C6: a full buffer with replacement disabled is untouched
by a further `fill` call. -/
theorem C6_witness :
    (0 ≤ (2 : ℕ) ∧ (2 : ℕ) ≤ 2) ∧ (2 : ℕ) ≤ 2 ∧
    ((2 : ℕ) = 2 → (2 : ℕ) = 2) ∧
    ((2 : ℕ) = 2 → (0 : ℕ) = 0 →
      (BatchPitNorm1d.mk 2 0 2 [9, 9] : BatchPitNorm1d ℕ).values = [9, 9]) :=
  C6_size_saturation (⟨2, 0, 2, [9, 9]⟩ : BatchPitNorm1d ℕ) ⟨2, 0, 2, [9, 9]⟩
    [7] (fun n => List.range n) (fun n => List.range n) rfl (by decide)
    (by rw [fill_when_full _ _ _ _ (by decide) (by decide)]; rfl)

/-! ### C7: mode-state violations -/

/-- C7: calling `fill` outside training mode fails with a descriptive
error; `forward` in evaluation mode with an empty buffer fails with a
descriptive error; `forward` in evaluation mode with `size ≥ 1` does not
fail on this condition and leaves the buffer unchanged. -/
theorem C7_mode_state_errors :
    (∀ (st : BatchPitNorm1d (List ℝ)) (data : List (List ℝ))
        (rb rs : ℕ → List ℕ),
      fill st false data rb rs
        = .error "Must be in training mode to allow filling.") ∧
    (∀ (st : BatchPitNorm1d (List ℝ)) (erf erfinv : ℝ → ℝ) (bw : List ℝ)
        (trainable nb : Bool) (f : ℕ) (x : List (List ℝ))
        (rb rs : ℕ → List ℕ), st.size = 0 →
      forward st false erf erfinv bw trainable nb f x rb rs
        = .error "Cannot compute forward pass without sample for the integral transform.") ∧
    (∀ (st : BatchPitNorm1d (List ℝ)) (erf erfinv : ℝ → ℝ) (bw : List ℝ)
        (trainable nb : Bool) (f : ℕ) (x : List (List ℝ))
        (rb rs : ℕ → List ℕ), 1 ≤ st.size →
      forward st false erf erfinv bw trainable nb f x rb rs
        = .ok (st, forwardOutput erf erfinv trainable nb f st.values st.size bw x)) := by
  refine ⟨fun st data rb rs => fill_not_training st data rb rs, ?_, ?_⟩
  · intro st erf erfinv bw trainable nb f x rb rs h0
    simp [forward, h0]
  · intro st erf erfinv bw trainable nb f x rb rs h1
    simp [forward, Nat.lt_of_lt_of_le Nat.zero_lt_one h1]

/-- Witness for C7: evaluation-mode behavior on concrete states. -/
theorem C7_witness :
    fill (⟨1, 0, 0, [[0]]⟩ : BatchPitNorm1d (List ℝ)) false []
        (fun n => List.range n) (fun n => List.range n)
      = .error "Must be in training mode to allow filling." ∧
    forward ⟨1, 0, 0, [[0]]⟩ false id id [] false false 1 []
        (fun n => List.range n) (fun n => List.range n)
      = .error "Cannot compute forward pass without sample for the integral transform." ∧
    forward ⟨1, 0, 1, [[0]]⟩ false id id [] false false 1 []
        (fun n => List.range n) (fun n => List.range n)
      = .ok (⟨1, 0, 1, [[0]]⟩,
          forwardOutput id id false false 1 [[0]] 1 [] []) :=
  ⟨C7_mode_state_errors.1 _ _ _ _,
   C7_mode_state_errors.2.1 _ _ _ _ _ _ _ _ _ _ rfl,
   C7_mode_state_errors.2.2 _ _ _ _ _ _ _ _ _ _ (by norm_num)⟩

/-! ### Replacement sampling (full buffer) -/

/-- Scattering `src` into `l` at distinct in-range indices `idx` stores
`src` exactly at those indices, in order. -/
theorem setMany_zip_values [Inhabited α] (idx : List ℕ) (src : List α)
    (l : List α) (hnd : idx.Nodup) (hlen : idx.length = src.length)
    (hlt : ∀ j ∈ idx, j < l.length) :
    idx.map (fun j => (setMany l (idx.zip src)).getD j default) = src := by
  induction idx generalizing src l with
  | nil =>
    cases src with
    | nil => rfl
    | cons v src => simp at hlen
  | cons j idx ih =>
    cases src with
    | nil => simp at hlen
    | cons v src =>
      simp only [List.length_cons, Nat.add_right_cancel_iff] at hlen
      rw [List.nodup_cons] at hnd
      have hjlen : j < l.length := hlt j (List.mem_cons_self _ _)
      simp only [List.zip_cons_cons, setMany_cons, List.map_cons]
      have h1 : (setMany (l.set j v) (idx.zip src)).getD j default = v := by
        have hnot : j ∉ (idx.zip src).map Prod.fst := by
          rw [List.map_fst_zip idx src (le_of_eq hlen)]
          exact hnd.1
        show ((setMany (l.set j v) (idx.zip src)).get? j).getD default = v
        rw [get?_setMany_notMem _ _ _ hnot,
          List.get?_set_eq_of_lt _ hjlen]
        rfl
      have h2 : idx.map
          (fun t => (setMany (l.set j v) (idx.zip src)).getD t default) = src :=
        ih src (l.set j v) hnd.2 hlen
          (fun t ht => by rw [List.length_set]; exact hlt t (List.mem_cons_of_mem _ ht))
      rw [h1, h2]

/-- A full-buffer replacement with `min n K ≤ capacity` succeeds and
scatters the gathered batch rows into the randomly chosen slots. -/
theorem replaceFull_success [Inhabited α] (st : BatchPitNorm1d α)
    (data : List α) (rb rs : ℕ → List ℕ) (k : ℕ)
    (hkdef : k = min data.length st.take_num_samples_when_full)
    (hK : st.take_num_samples_when_full ≠ 0)
    (hk : k ≤ st.num_pit_samples)
    (hrb : isRandPermOf (rb k) k)
    (hrs : isRandPermOf (rs st.num_pit_samples) st.num_pit_samples) :
    replaceFull st data rb rs
      = .ok { st with
              values := setMany st.values
                (((rs st.num_pit_samples).take k).zip
                  ((rb k).map fun i => data.getD i default)) } := by
  have hrslen : (rs st.num_pit_samples).length = st.num_pit_samples :=
    hrs.length_eq.trans (List.length_range _)
  have hrblen : (rb k).length = k :=
    hrb.length_eq.trans (List.length_range _)
  simp only [replaceFull, ← hkdef, if_neg hK]
  rw [if_pos]
  simp only [List.length_take, List.length_map, hrslen, hrblen]
  omega

/-- On a full buffer (with a non-empty batch) `fill` goes straight to the
replacement branch. -/
theorem fill_full_eq [Inhabited α] (st : BatchPitNorm1d α) (data : List α)
    (rb rs : ℕ → List ℕ) (hfull : st.size = st.num_pit_samples)
    (hn : 0 < data.length) :
    fill st true data rb rs = replaceFull st data rb rs :=
  fill_when_full st data rb rs hn (by unfold capacity_left; omega)

/-! ### C5: replacement conservation -/

/-- C5: with `take_num_samples_when_full = K > 0`, a successful
full-buffer `fill` call with `n` incoming rows overwrites exactly
`min n K` distinct buffer slots — each receiving a row of the incoming
batch — and leaves every other buffer row unchanged. -/
theorem C5_replacement_conservation {α : Type} [Inhabited α]
    (st st' : BatchPitNorm1d α) (data : List α) (rb rs : ℕ → List ℕ) (k : ℕ)
    (hkdef : k = min data.length st.take_num_samples_when_full)
    (hfull : st.size = st.num_pit_samples)
    (hvlen : st.values.length = st.num_pit_samples)
    (hK : 0 < st.take_num_samples_when_full)
    (hn : 0 < data.length)
    (hk : k ≤ st.num_pit_samples)
    (hrb : isRandPermOf (rb k) k)
    (hrs : isRandPermOf (rs st.num_pit_samples) st.num_pit_samples)
    (h : fill st true data rb rs = .ok st') :
    ∃ S : Finset ℕ, S.card = k ∧ (∀ j ∈ S, j < st.num_pit_samples) ∧
      (∀ j, j ∉ S → st'.values.get? j = st.values.get? j) ∧
      (∀ j ∈ S, ∃ r ∈ data, st'.values.get? j = some r) := by
  rw [fill_full_eq st data rb rs hfull hn,
    replaceFull_success st data rb rs k hkdef (Nat.pos_iff_ne_zero.mp hK)
      hk hrb hrs] at h
  simp only [Except.ok.injEq] at h
  subst h
  have hrslen : (rs st.num_pit_samples).length = st.num_pit_samples :=
    hrs.length_eq.trans (List.length_range _)
  have hrblen : (rb k).length = k :=
    hrb.length_eq.trans (List.length_range _)
  have huvilen : ((rs st.num_pit_samples).take k).length = k := by
    rw [List.length_take, hrslen]
    omega
  have hsrclen : ((rb k).map fun i => data.getD i default).length = k := by
    rw [List.length_map, hrblen]
  have hnd : ((rs st.num_pit_samples).take k).Nodup :=
    List.Nodup.sublist (List.take_sublist k _)
      (hrs.nodup_iff.mpr (List.nodup_range _))
  have hmem_lt : ∀ j ∈ (rs st.num_pit_samples).take k,
      j < st.num_pit_samples := fun j hj =>
    List.mem_range.mp (hrs.mem_iff.mp (List.take_subset _ _ hj))
  refine ⟨((rs st.num_pit_samples).take k).toFinset, ?_, ?_, ?_, ?_⟩
  · rw [List.toFinset_card_of_nodup hnd, huvilen]
  · intro j hj
    exact hmem_lt j (List.mem_toFinset.mp hj)
  · intro j hj
    apply get?_setMany_notMem
    rw [List.map_fst_zip _ _ (by rw [huvilen, hsrclen])]
    exact fun hmem => hj (List.mem_toFinset.mpr hmem)
  · intro j hj
    have hjmem : j ∈ (rs st.num_pit_samples).take k := List.mem_toFinset.mp hj
    obtain ⟨t, ht, hget⟩ := List.mem_iff_getElem.mp hjmem
    have htk : t < k := huvilen ▸ ht
    have htsrc : t < ((rb k).map fun i => data.getD i default).length := by
      omega
    have htrb : t < (rb k).length := by
      omega
    have hzmem : (j, ((rb k).map fun i => data.getD i default)[t])
        ∈ ((rs st.num_pit_samples).take k).zip
            ((rb k).map fun i => data.getD i default) := by
      apply List.mem_iff_getElem.mpr
      refine ⟨t, by rw [List.length_zip]; omega, ?_⟩
      rw [List.getElem_zip, hget]
    have hidx : (rb k)[t] ∈ List.range k :=
      hrb.mem_iff.mp (List.getElem_mem htrb)
    have hidxlt : (rb k)[t] < data.length := by
      have := List.mem_range.mp hidx
      omega
    refine ⟨((rb k).map fun i => data.getD i default)[t], ?_, ?_⟩
    · rw [List.getElem_map, List.getD_eq_getElem data default hidxlt]
      exact List.getElem_mem hidxlt
    · apply get?_setMany_mem
      · rw [List.map_fst_zip _ _ (by rw [huvilen, hsrclen])]
        exact hnd
      · exact hzmem
      · rw [hvlen]
        exact hmem_lt j hjmem

/-- Witness for C5: capacity 2, `K = 1`, batch `[5]` replacing one slot
of the full buffer `[10, 20]` (slot 0, by the identity permutations). -/
theorem C5_witness :
    ∃ S : Finset ℕ, S.card = 1 ∧ (∀ j ∈ S, j < 2) ∧
      (∀ j, j ∉ S →
        (BatchPitNorm1d.mk 2 1 2 [5, 20] : BatchPitNorm1d ℕ).values.get? j
          = (BatchPitNorm1d.mk 2 1 2 [10, 20]).values.get? j) ∧
      (∀ j ∈ S, ∃ r ∈ [5],
        (BatchPitNorm1d.mk 2 1 2 [5, 20] : BatchPitNorm1d ℕ).values.get? j
          = some r) :=
  C5_replacement_conservation ⟨2, 1, 2, [10, 20]⟩ ⟨2, 1, 2, [5, 20]⟩ [5]
    (fun n => List.range n) (fun n => List.range n) 1 rfl rfl rfl
    (by decide) (by decide) (by decide) (List.Perm.refl _) (List.Perm.refl _)
    (by rw [fill_full_eq _ _ _ _ rfl (by decide)]; rfl)

/-- A full-buffer replacement with `min n K > capacity ≥ 1` hits the
shape-mismatch error: `min n K` gathered rows cannot be assigned to the
only `capacity` distinct chosen slots. -/
theorem replaceFull_shape_mismatch [Inhabited α] (st : BatchPitNorm1d α)
    (data : List α) (rb rs : ℕ → List ℕ) (k : ℕ)
    (hkdef : k = min data.length st.take_num_samples_when_full)
    (hK : st.take_num_samples_when_full ≠ 0)
    (hcap : 0 < st.num_pit_samples)
    (hk : st.num_pit_samples < k)
    (hrb : isRandPermOf (rb k) k)
    (hrs : isRandPermOf (rs st.num_pit_samples) st.num_pit_samples) :
    replaceFull st data rb rs
      = .error "shape mismatch: value rows cannot be broadcast to indexing result" := by
  have hrslen : (rs st.num_pit_samples).length = st.num_pit_samples :=
    hrs.length_eq.trans (List.length_range _)
  have hrblen : (rb k).length = k :=
    hrb.length_eq.trans (List.length_range _)
  simp only [replaceFull, ← hkdef, if_neg hK]
  rw [if_neg, if_neg]
  · simp only [List.length_map, hrblen]
    omega
  · simp only [List.length_take, List.length_map, hrslen, hrblen]
    omega

/-! ### C10: shape safety of full-buffer replacement -/

/-- C10: a `fill` call on a full buffer with replacement enabled
succeeds when `min n K ≤ capacity`; when `min n K > capacity` the batched
overwrite assigns `min n K` source rows to only `capacity` distinct slots
and fails with a shape mismatch. -/
theorem C10_full_fill_shape_safety {α : Type} [Inhabited α]
    (st : BatchPitNorm1d α) (data : List α) (rb rs : ℕ → List ℕ) (k : ℕ)
    (hkdef : k = min data.length st.take_num_samples_when_full)
    (hfull : st.size = st.num_pit_samples)
    (hK : 0 < st.take_num_samples_when_full)
    (hcap : 0 < st.num_pit_samples)
    (hn : 0 < data.length)
    (hrb : isRandPermOf (rb k) k)
    (hrs : isRandPermOf (rs st.num_pit_samples) st.num_pit_samples) :
    (k ≤ st.num_pit_samples → ∃ st', fill st true data rb rs = .ok st') ∧
    (st.num_pit_samples < k →
      fill st true data rb rs
        = .error "shape mismatch: value rows cannot be broadcast to indexing result") := by
  constructor
  · intro hk
    exact ⟨_, (fill_full_eq st data rb rs hfull hn).trans
      (replaceFull_success st data rb rs k hkdef
        (Nat.pos_iff_ne_zero.mp hK) hk hrb hrs)⟩
  · intro hk
    exact (fill_full_eq st data rb rs hfull hn).trans
      (replaceFull_shape_mismatch st data rb rs k hkdef
        (Nat.pos_iff_ne_zero.mp hK) hcap hk hrb hrs)

/-- Witness for C10: capacity 1, `K = 2`, two incoming rows:
`min 2 2 = 2 > 1`, so the call fails with the shape mismatch. -/
theorem C10_witness :
    fill (⟨1, 2, 1, [0]⟩ : BatchPitNorm1d ℕ) true [5, 6]
        (fun n => List.range n) (fun n => List.range n)
      = .error "shape mismatch: value rows cannot be broadcast to indexing result" :=
  (C10_full_fill_shape_safety ⟨1, 2, 1, [0]⟩ [5, 6]
      (fun n => List.range n) (fun n => List.range n) 2 rfl rfl (by decide)
      (by decide) (by decide) (List.Perm.refl _) (List.Perm.refl _)).2
    (by decide)

/-! ### C4: which rows and slots replacement can choose -/

/-- Mapping `getD` over `range k` recovers the first `k` list entries. -/
theorem range_map_getD_eq_take [Inhabited α] (data : List α) (k : ℕ)
    (hk : k ≤ data.length) :
    (List.range k).map (fun i => data.getD i default) = data.take k := by
  apply List.ext_getElem
  · simp only [List.length_map, List.length_range, List.length_take]
    omega
  · intro n h1 h2
    simp only [List.getElem_map, List.getElem_range, List.getElem_take]
    rw [List.getD_eq_getElem data default
      (by simp only [List.length_map, List.length_range] at h1; omega)]

/-- C4 fails as stated: take a full buffer of capacity 1 holding `[0]`,
`take_num_samples_when_full = 1`, and the incoming batch `[1, 2]`
(`n = 2`, `k = 1`).  The code draws `torch.randperm (min n K) =
randperm 1`, whose only outcome is `[0]`, so row index 1 of the batch can
never be selected: no valid randomness makes the buffer hold row `2`,
although the claim says every 1-element subset of the batch's rows —
in particular the one selecting row 1 — is a possible choice. -/
theorem C4_counterexample :
    ¬ ∃ rb rs : ℕ → List ℕ, isRandPermOf (rb 1) 1 ∧ isRandPermOf (rs 1) 1 ∧
      ∃ st' : BatchPitNorm1d ℕ,
        fill ⟨1, 1, 1, [0]⟩ true [1, 2] rb rs = .ok st' ∧
        st'.values = [2] := by
  rintro ⟨rb, rs, h1, h2, st', hfill, hval⟩
  have hr1 : List.range 1 = [0] := by simp [List.range_succ]
  have hrb : rb 1 = [0] := by
    have h := h1
    rw [isRandPermOf, hr1, List.perm_singleton] at h
    exact h
  have hrs : rs 1 = [0] := by
    have h := h2
    rw [isRandPermOf, hr1, List.perm_singleton] at h
    exact h
  rw [fill_full_eq _ _ _ _ rfl (by decide),
    replaceFull_success ⟨1, 1, 1, [0]⟩ [1, 2] rb rs 1 rfl (by decide)
      (by decide) h1 h2] at hfill
  rw [hrb, hrs] at hfill
  simp only [Except.ok.injEq] at hfill
  rw [← hfill] at hval
  exact absurd hval (by decide)

/-- C4 (amended): on a full buffer with `K > 0` and `k = min n K ≤
capacity`, for every valid randomness the `k` rows written are exactly
the FIRST `k` rows of the incoming batch, in a randomly permuted order
(rows `k..n-1` can never be chosen), while the `k` overwritten slots are
the first `k` entries of a random permutation of all `capacity` slots, so
every `k`-element slot subset is a possible choice. -/
theorem C4_replacement_choices {α : Type} [Inhabited α]
    (st : BatchPitNorm1d α) (data : List α) (rb rs : ℕ → List ℕ) (k : ℕ)
    (hkdef : k = min data.length st.take_num_samples_when_full)
    (hfull : st.size = st.num_pit_samples)
    (hvlen : st.values.length = st.num_pit_samples)
    (hK : 0 < st.take_num_samples_when_full)
    (hn : 0 < data.length)
    (hk : k ≤ st.num_pit_samples)
    (hrb : isRandPermOf (rb k) k)
    (hrs : isRandPermOf (rs st.num_pit_samples) st.num_pit_samples) :
    (∃ st', fill st true data rb rs = .ok st' ∧
      (((rs st.num_pit_samples).take k).map
        fun j => st'.values.getD j default).Perm (data.take k)) ∧
    (∀ T : Finset ℕ, T ⊆ Finset.range st.num_pit_samples → T.card = k →
      ∃ rs' : ℕ → List ℕ,
        isRandPermOf (rs' st.num_pit_samples) st.num_pit_samples ∧
        ((rs' st.num_pit_samples).take k).toFinset = T) := by
  have hrslen : (rs st.num_pit_samples).length = st.num_pit_samples :=
    hrs.length_eq.trans (List.length_range _)
  have hrblen : (rb k).length = k :=
    hrb.length_eq.trans (List.length_range _)
  constructor
  · refine ⟨_, (fill_full_eq st data rb rs hfull hn).trans
      (replaceFull_success st data rb rs k hkdef
        (Nat.pos_iff_ne_zero.mp hK) hk hrb hrs), ?_⟩
    have hvals : ((rs st.num_pit_samples).take k).map
        (fun j => (setMany st.values
          (((rs st.num_pit_samples).take k).zip
            ((rb k).map fun i => data.getD i default))).getD j default)
        = (rb k).map fun i => data.getD i default := by
      apply setMany_zip_values
      · exact List.Nodup.sublist (List.take_sublist k _)
          (hrs.nodup_iff.mpr (List.nodup_range _))
      · simp only [List.length_take, List.length_map, hrslen, hrblen]
        omega
      · intro j hj
        rw [hvlen]
        exact List.mem_range.mp (hrs.mem_iff.mp (List.take_subset _ _ hj))
    rw [hvals]
    have heq : (List.range k).map (fun i => data.getD i default)
        = data.take k :=
      range_map_getD_eq_take data k (by rw [hkdef]; exact min_le_left _ _)
    exact heq ▸ (hrb.map fun i => data.getD i default)
  · intro T hT hcard
    refine ⟨fun m => if m = st.num_pit_samples then
        T.sort (· ≤ ·) ++ ((Finset.range st.num_pit_samples \ T).sort (· ≤ ·))
      else List.range m, ?_, ?_⟩
    · show ((if st.num_pit_samples = st.num_pit_samples then _ else _) :
        List ℕ).Perm (List.range st.num_pit_samples)
      rw [if_pos rfl, ← Multiset.coe_eq_coe, ← Multiset.coe_add]
      have h1 : (↑(T.sort (· ≤ ·)) : Multiset ℕ) = T.val :=
        (Multiset.coe_eq_coe.mpr (T.sort_perm_toList (· ≤ ·))).trans T.coe_toList
      have h2 : (↑((Finset.range st.num_pit_samples \ T).sort (· ≤ ·)) :
          Multiset ℕ) = (Finset.range st.num_pit_samples \ T).val :=
        (Multiset.coe_eq_coe.mpr
          ((Finset.range st.num_pit_samples \ T).sort_perm_toList (· ≤ ·))).trans
          (Finset.range st.num_pit_samples \ T).coe_toList
      rw [h1, h2, Finset.sdiff_val,
        add_tsub_cancel_of_le (Finset.val_le_iff.mpr hT)]
      rfl
    · simp only [eq_self_iff_true, if_true]
      rw [List.take_left' (by rw [Finset.length_sort]; exact hcard),
        Finset.sort_toFinset]

/-- Witness for C4 (amended): capacity 1, `K = 1`, batch `[5, 7]`. -/
theorem C4_witness :
    (∃ st' : BatchPitNorm1d ℕ,
      fill ⟨1, 1, 1, [0]⟩ true [5, 7]
          (fun n => List.range n) (fun n => List.range n) = .ok st' ∧
      (((List.range 1).take 1).map
        fun j => st'.values.getD j default).Perm ([5, 7].take 1)) ∧
    (∀ T : Finset ℕ, T ⊆ Finset.range 1 → T.card = 1 →
      ∃ rs' : ℕ → List ℕ, isRandPermOf (rs' 1) 1 ∧
        ((rs' 1).take 1).toFinset = T) :=
  C4_replacement_choices ⟨1, 1, 1, [0]⟩ [5, 7]
    (fun n => List.range n) (fun n => List.range n) 1 rfl rfl rfl
    (by decide) (by decide) (by decide) (List.Perm.refl _) (List.Perm.refl _)

/-! ### C1: the CDF built by `make_cdf` -/

/-- C1: for every reference sample, bandwidth parameter and query point,
the CDF built by `make_cdf` evaluates to
`(1/m) * Σᵢ Φ((x - sample[i]) / bw)` with
`Φ(z) = 0.5 * (1 + erf (z / √2))`, where `bw` is the bandwidth
`make_cdf` selects (the heuristic rule, or `sigmoid` of the stored
parameter when bandwidths are trainable). -/
theorem C1_make_cdf_is_kernel_mixture_cdf (erf : ℝ → ℝ) (trainable : Bool)
    (data : List ℝ) (bw x : ℝ) :
    make_cdf erf trainable data bw x
      = kernelMixtureCdfSpec erf data (selectBw trainable data bw) x := rfl

/-! ### C3: positivity of the heuristic bandwidth -/

theorem insertionSort_pair (a b : ℝ) (hab : a ≤ b) :
    ([a, b] : List ℝ).insertionSort (· ≤ ·) = [a, b] := by
  simp [List.insertionSort, List.orderedInsert, hab]

/-- Evaluating `torch.quantile` on a two-element sample interpolates linearly
between its two order statistics. -/
theorem torchQuantile_pair (a b : ℝ) (hab : a ≤ b) (q : ℝ) (h0 : 0 ≤ q)
    (h1 : q < 1) : torchQuantile [a, b] q = a + q * (b - a) := by
  have hfl : ⌊q⌋₊ = 0 := Nat.floor_eq_zero.mpr h1
  simp only [torchQuantile, insertionSort_pair a b hab, List.length_cons,
    List.length_nil]
  norm_num [hfl, List.getD_cons_zero, List.getD_cons_succ]

theorem stdR_pair_eq (a b : ℝ) :
    stdR [a, b] = Real.sqrt ((a - (a + b) / 2) ^ 2 + (b - (a + b) / 2) ^ 2) := by
  unfold stdR
  norm_num [List.sum_cons, List.sum_nil]

theorem heuristicBw_const_pair : heuristicBw [(0 : ℝ), 0] = 0 := by
  unfold heuristicBw
  rw [torchQuantile_pair 0 0 le_rfl 0.25 (by norm_num) (by norm_num),
    torchQuantile_pair 0 0 le_rfl 0.75 (by norm_num) (by norm_num),
    stdR_pair_eq]
  norm_num

/-- C3 fails as stated: the reference sample `[0, 0]` has `m = 2 ≥ 2`
values, but its standard deviation and IQR are both 0, so the heuristic
bandwidth `0.9 * min(σ, IQR/1.34) * m^(-0.2)` is 0 — non-positive. -/
theorem C3_counterexample :
    ([(0 : ℝ), 0].length = 2) ∧ ¬ (0 < heuristicBw [(0 : ℝ), 0]) := by
  refine ⟨rfl, ?_⟩
  rw [heuristicBw_const_pair]
  exact lt_irrefl 0

/-- C3 (amended): for every reference sample with `m ≥ 2` values whose
sample standard deviation and interquartile range are both strictly
positive, the heuristic bandwidth `0.9 * min(σ, IQR/1.34) * m^(-0.2)` is
strictly positive (finiteness is automatic in the real-number model);
for degenerate samples — e.g. all values equal — it is 0, not positive. -/
theorem C3_heuristic_bandwidth_pos (data : List ℝ) (h2 : 2 ≤ data.length)
    (hstd : 0 < stdR data)
    (hiqr : 0 < torchQuantile data 0.75 - torchQuantile data 0.25) :
    0 < heuristicBw data := by
  unfold heuristicBw
  have hm : (0 : ℝ) < (data.length : ℝ) := by
    have h : (0 : ℕ) < data.length := by omega
    exact_mod_cast h
  have hrp : (0 : ℝ) < (data.length : ℝ) ^ (-(0.2 : ℝ)) :=
    Real.rpow_pos_of_pos hm _
  have hmin : 0 < min (stdR data)
      ((torchQuantile data 0.75 - torchQuantile data 0.25) / 1.34) :=
    lt_min hstd (by positivity)
  exact mul_pos (mul_pos (by norm_num) hmin) hrp

/-- Witness for C3 (amended): the two-element sample `[0, 1]`. -/
theorem C3_witness :
    2 ≤ ([(0 : ℝ), 1].length) ∧ 0 < heuristicBw [(0 : ℝ), 1] := by
  refine ⟨by norm_num, ?_⟩
  apply C3_heuristic_bandwidth_pos [0, 1] (by norm_num)
  · rw [stdR_pair_eq]
    apply Real.sqrt_pos.mpr
    norm_num
  · rw [torchQuantile_pair 0 1 (by norm_num) 0.75 (by norm_num) (by norm_num),
      torchQuantile_pair 0 1 (by norm_num) 0.25 (by norm_num) (by norm_num)]
    norm_num

/-! ### C8: construction-time checks -/

/-- C8 fails as stated: `num_features = 0` is non-positive, but
construction succeeds — the constructor asserts only
`num_pit_samples > 0` and `take_num_samples_when_full ≥ 0`, and a
zero-width tensor is legal. -/
theorem C8_counterexample : ∃ st, initLayer 0 0 1 0 = .ok st :=
  ⟨⟨1, 0, 0, [[]]⟩, rfl⟩

/-- C8 (amended): construction with non-positive capacity is rejected by
the assertion; a NEGATIVE feature count fails (only) at tensor creation;
construction succeeds whenever capacity > 0, `num_features ≥ 0` and
`take_num_samples_when_full ≥ 0` — in particular a zero feature count is
accepted. -/
theorem C8_construction_checks (nanR : ℝ) (f cap K : ℤ) :
    (cap ≤ 0 →
      initLayer nanR f cap K
        = .error "Require at least one sample for PIT normalization.") ∧
    (0 < cap → 0 ≤ K → f < 0 →
      initLayer nanR f cap K
        = .error "Trying to create tensor with negative dimension") ∧
    (0 < cap → 0 ≤ K → 0 ≤ f →
      initLayer nanR f cap K
        = .ok ⟨cap.toNat, K.toNat, 0,
            List.replicate cap.toNat (List.replicate f.toNat nanR)⟩) := by
  refine ⟨?_, ?_, ?_⟩
  · intro h
    simp only [initLayer]
    rw [if_neg (by omega)]
  · intro h1 h2 h3
    simp only [initLayer]
    rw [if_pos h1, if_pos h2]
    have hA : torchShapeCheck 1 f
        = .error "Trying to create tensor with negative dimension" := by
      simp only [torchShapeCheck]
      rw [if_pos (Or.inr h3)]
    rw [hA]
  · intro h1 h2 h3
    simp only [initLayer]
    rw [if_pos h1, if_pos h2]
    have hA : torchShapeCheck 1 f = .ok () := by
      simp only [torchShapeCheck]
      rw [if_neg (by omega)]
    have hB : torchShapeCheck cap f = .ok () := by
      simp only [torchShapeCheck]
      rw [if_neg (by omega)]
    rw [hA, hB]

/-- Witness for C8 (amended): capacity 2, 3 features, `K = 1`. -/
theorem C8_witness :
    initLayer 0 3 2 1
      = .ok ⟨2, 1, 0, List.replicate 2 (List.replicate 3 0)⟩ :=
  (C8_construction_checks 0 3 2 1).2.2 (by norm_num) (by norm_num) (by norm_num)

/-! ### C9: output independence from the stored bandwidth tensor -/

/-- C9: when `trainable_bandwidths` is false, the result of `forward`
(including both the buffer state and the output tensor) is independent of
the stored bandwidth tensor `self.bw`: two runs differing only in `bw`
coincide. -/
theorem C9_forward_independent_of_bw (st : BatchPitNorm1d (List ℝ))
    (training : Bool) (erf erfinv : ℝ → ℝ) (bw₁ bw₂ : List ℝ)
    (normal_backtransform : Bool) (num_features : ℕ) (x : List (List ℝ))
    (rb rs : ℕ → List ℕ) :
    forward st training erf erfinv bw₁ false normal_backtransform
        num_features x rb rs
      = forward st training erf erfinv bw₂ false normal_backtransform
        num_features x rb rs := rfl

end BPit
